import Mathlib

/-!
Verification development for an AST-guided test-case reducer (delta debugger).

The embedding mirrors the program's modules:
* diagnostic parsing of the build driver's output (`builder.rs`),
* the parser adapter (`parser.rs`),
* the syntax graph and its builder (`graph.rs`),
* subtree removal (`remover.rs`),
* code regeneration (`generator.rs`),
* the reduction search loop (`searcher.rs`).

Diagnostic text is modelled as `List Char`; the Rust string operations used
by the code (`trim`, `lines`, `starts_with`, `split`) are defined below with
the same semantics on that representation.  The external syntax library and
the external build driver are out of scope: the library's parse result and
the driver's diagnostic output enter the model as explicit inputs, exactly
at the points where the program consumes them.
-/

/-- Character classified as whitespace by the string trimming used on
diagnostic lines (space, tab, carriage return, newline). -/
def isWhiteChar (c : Char) : Bool :=
  c = ' ' || c = '\t' || c = '\r' || c = '\n'

/-- Rust `str::trim`: drop whitespace from both ends. -/
def trimChars (l : List Char) : List Char :=
  ((l.dropWhile isWhiteChar).reverse.dropWhile isWhiteChar).reverse

/-- Rust `str::split(c)`: split on every occurrence of `c`; the result always
has at least one (possibly empty) piece. -/
def splitChar (c : Char) : List Char → List (List Char)
  | [] => [[]]
  | x :: xs =>
    if x = c then [] :: splitChar c xs
    else
      match splitChar c xs with
      | p :: ps => (x :: p) :: ps
      | [] => [[x]]

/-- Rust `str::lines` applied to an already-trimmed string: split on newline;
an empty string yields no lines. -/
def linesOf (l : List Char) : List (List Char) :=
  if l.isEmpty then [] else splitChar '\n' l

/-- Rust `str::starts_with`. -/
def startsWithL (p l : List Char) : Bool :=
  decide (l.take p.length = p)

/-- The keyword `error` that opens a diagnostic record. -/
def errKw : List Char := ['e', 'r', 'r', 'o', 'r']

/-- The location marker `-->` of a diagnostic. -/
def arrowKw : List Char := ['-', '-', '>']

/-- Build error record produced by parsing one compiler diagnostic
(struct `BuildError`: optional error code, optional source file, first
diagnostic line).  Equality is the derived structural equality, as in the
source (`derive(PartialEq, Eq)`). -/
structure BuildError where
  error_code : Option (List Char)
  source_file : Option (List Char)
  error_src : List Char
deriving DecidableEq, Repr

/-- Diagnostic-stream parse failure (enum `ParseError`). -/
inductive DiagParseError where
  | unmatchedLocationInformation
deriving DecidableEq, Repr

/-- Error-code capture of `TryFrom<String> for BuildErros`: the text after the
first `[` of the line, up to the first following `]`
(`line.split('[').nth(1).and_then(|l| l.split(']').next())`). -/
def errorCodeOf (line : List Char) : Option (List Char) :=
  ((splitChar '[' line).get? 1).bind fun t => (splitChar ']' t).head?

/-- Record opened for a line that starts with `error`. -/
def mkErrorRecord (line : List Char) : BuildError :=
  { error_code := errorCodeOf line, source_file := none, error_src := line }

/-- Source-file capture for a `-->` line: the text after the first `>`,
trimmed, up to the first `:`. -/
def locPathOf (line : List Char) : Option (List Char) :=
  (((splitChar '>' line).get? 1).map trimChars).bind fun li =>
    (splitChar ':' li).head?

/-- Line loop of `TryFrom<String> for BuildErros`: an `error` line opens a
record, a `-->` line attaches the location and emits the pending record, a
`-->` line with no pending record is a hard parse error, anything else is
ignored. -/
def buildErrorLines :
    List (List Char) → Option BuildError → List BuildError →
    Except DiagParseError (List BuildError)
  | [], _, errors => .ok errors
  | rawLine :: rest, currentError, errors =>
    let line := trimChars rawLine
    if startsWithL errKw line then
      buildErrorLines rest (some (mkErrorRecord line)) errors
    else if startsWithL arrowKw (trimChars line) then
      match currentError with
      | none => .error .unmatchedLocationInformation
      | some err =>
        buildErrorLines rest none
          (errors ++ [{ err with source_file := locPathOf line }])
    else
      buildErrorLines rest currentError errors

/-- Whole diagnostic-stream parser (`impl TryFrom<String> for BuildErros`,
keeping the source's spelling of the name): trim the input, walk its lines. -/
def BuildErros.tryFrom (value : List Char) :
    Except DiagParseError (List BuildError) :=
  buildErrorLines (linesOf (trimChars value)) none []

/-- Signature equality of two build-error records as defined by the
specification, written from the spec's words for comparison against the
implementation: codes equal when both present, `error_src` compared when both
absent, unequal otherwise. -/
def signatureEqSpec (a b : BuildError) : Bool :=
  match a.error_code, b.error_code with
  | some x, some y => decide (x = y)
  | none, none => decide (a.error_src = b.error_src)
  | _, _ => false

/-- Text of a diagnostic line between the `error` keyword and the first
colon, written from the spec's words (the spec's capture window for the
bracketed error code). -/
def specCodeWindow (line : List Char) : List Char :=
  (line.drop errKw.length).takeWhile (fun c => c ≠ ':')

/-!
Syntax-tree universe.  The embedding covers the node kinds the program
tracks as graph vertices (`SourceRoot`, `Item`, `ItemFn`, `Block`,
`LocalStmt`, `ExprArray`, `ExprAssign`, `ExprLet`) together with the
surrounding syntax the external library's visitor walks through; untracked
concrete syntax (identifiers, signatures, attributes, tokens) is carried as
opaque `Nat` payloads, which is all the program ever does with it (clone it
back verbatim).  Untracked items and statements are modelled as leaves.
-/

mutual

/-- An item of a source file (`syn::Item`): a free function, or any other
item kept opaque. -/
inductive SynItem where
  | fn (f : SynItemFn)
  | other (payload : Nat)

/-- A free function (`syn::ItemFn`): attributes, visibility and signature are
opaque payloads; the body is a block. -/
inductive SynItemFn where
  | mk (attrs : List Nat) (vis : Nat) (sig : Nat) (block : SynBlock)

/-- A block (`syn::Block`): an opaque brace token and a statement list. -/
inductive SynBlock where
  | mk (brace : Nat) (stmts : List SynStmt)

/-- A statement (`syn::Stmt`): a local binding, a nested item, an expression
statement with or without trailing semicolon, or an opaque statement. -/
inductive SynStmt where
  | localStmt (l : SynLocal)
  | itemStmt (i : SynItem)
  | exprStmt (e : SynExpr) (semi : Bool)
  | otherStmt (payload : Nat)

/-- A local binding (`syn::Local`): opaque pattern/token payload and an
optional initializer expression. -/
inductive SynLocal where
  | mk (payload : Nat) (init : Option SynExpr)

/-- An expression (`syn::Expr`): the three tracked kinds, or any other
expression with the sub-expressions the visitor recurses into. -/
inductive SynExpr where
  | array (a : SynExprArray)
  | assign (a : SynExprAssign)
  | letE (l : SynExprLet)
  | other (payload : Nat) (subs : List SynExpr)

/-- An array expression (`syn::ExprArray`). -/
inductive SynExprArray where
  | mk (payload : Nat) (elems : List SynExpr)

/-- An assignment expression (`syn::ExprAssign`). -/
inductive SynExprAssign where
  | mk (payload : Nat) (left : SynExpr) (right : SynExpr)

/-- A let expression (`syn::ExprLet`). -/
inductive SynExprLet where
  | mk (payload : Nat) (expr : SynExpr)

end

/-- A source file (`syn::File`): optional shebang, attributes, items. -/
structure SynFile where
  shebang : Option Nat
  attrs : List Nat
  items : List SynItem

/-- Outcome of running a Rust function that can panic: a value, or a panic
that aborts the process. -/
inductive RustOutcome (α : Type) where
  | ok (a : α)
  | panicked

/-- Representation of a parsed file (struct `AbstractSyntaxTree`): the
attributes and items of the underlying `syn::File`. -/
structure AbstractSyntaxTree where
  attributes : List Nat
  items : List SynItem

/-- Parse adapter (`AbstractSyntaxTree::parse`).  The external library's
answer is the input: `some f` when the text is syntactically valid with parse
result `f`, `none` when it is not.  The source unwraps that answer
(`syn::parse_str::<syn::File>(input.as_ref()).unwrap()`), so an invalid
input panics; a valid one is destructured into attributes and items. -/
def AbstractSyntaxTree.parse (synResult : Option SynFile) :
    RustOutcome AbstractSyntaxTree :=
  match synResult with
  | some f => .ok { attributes := f.attrs, items := f.items }
  | none => .panicked

/-- Back to a `syn::File` (`AbstractSyntaxTree::syn_file`): the shebang is
always `None` for files regenerated from the AST. -/
def AbstractSyntaxTree.synFile (a : AbstractSyntaxTree) : SynFile :=
  { shebang := none, attrs := a.attributes, items := a.items }

/-!
The syntax graph.  `petgraph::stable_graph::StableDiGraph` is modelled by a
node list (index paired with its `AstNode` weight, in insertion order; the
index is the insertion counter, which `StableDiGraph` never reuses here
because the program only removes nodes from clones) and an edge list in
insertion order.  `edges_directed(ix, Outgoing)` and `neighbors(ix)` iterate
a node's edges in reverse insertion order, which the model reproduces by
reversing the filtered edge list.
-/

/-- Graph vertex payload (enum `AstNode`): one constructor per tracked node
kind, carrying the syntax value of that node. -/
inductive AstNode where
  | sourceRoot (f : SynFile)
  | item (i : SynItem)
  | itemFn (f : SynItemFn)
  | block (b : SynBlock)
  | localStmt (l : SynLocal)
  | exprArray (a : SynExprArray)
  | exprAssign (a : SynExprAssign)
  | exprLet (l : SynExprLet)

/-- The syntax graph: vertices with payloads, and directed parent-to-child
edges, both in insertion order. -/
structure SynGraph where
  nodes : List (Nat × AstNode)
  edges : List (Nat × Nat)

/-- Vertex identities of a node list. -/
def idsOf (l : List (Nat × AstNode)) : List Nat :=
  l.map Prod.fst

/-- Weight lookup `graph[ix]`. -/
def lookupNode (g : SynGraph) (ix : Nat) : Option AstNode :=
  (g.nodes.find? (fun n => n.1 == ix)).map Prod.snd

/-- Outgoing neighbors of `ix` in petgraph's iteration order: reverse
insertion order of the edges. -/
def neighborsOf (g : SynGraph) (ix : Nat) : List Nat :=
  ((g.edges.filter (fun e => e.1 == ix)).map Prod.snd).reverse

/-- Outgoing children of `ix` in edge-insertion order (the textual order of
the children; the reverse of the iteration order above). -/
def edgeOrderChildren (g : SynGraph) (ix : Nat) : List Nat :=
  (g.edges.filter (fun e => e.1 == ix)).map Prod.snd

/-- Number of incoming edges of `ix` (its number of parents). -/
def inEdgeCount (es : List (Nat × Nat)) (ix : Nat) : Nat :=
  (es.filter (fun e => e.2 == ix)).length

/-- Edge relation of an edge list. -/
def edgeRel (es : List (Nat × Nat)) (a b : Nat) : Prop :=
  (a, b) ∈ es

/-- Reachability along the edges: `b` is `a` itself or a descendant of `a`. -/
def reachE (es : List (Nat × Nat)) (a b : Nat) : Prop :=
  Relation.ReflTransGen (edgeRel es) a b

/-!
Graph builder (`GraphBuilder` with the `insert_and_visit!` macro).  The
builder state bundles the growing graph, the fresh-index counter of the
underlying arena, the current parent vertex, and the recorded root.  Every
tracked visit inserts a vertex, connects it to the current parent when one
exists, makes it the current parent for the recursive walk, and restores the
previous parent afterwards.
-/

/-- Mutable state of the graph builder: the `SyntaxTree` under construction
(nodes, edges, root) plus the visitor's current parent and the arena's next
fresh index. -/
structure BuildState where
  nodes : List (Nat × AstNode)
  edges : List (Nat × Nat)
  nextIx : Nat
  current : Option Nat
  rootNode : Option Nat

/-- First half of `insert_and_visit!`: add the node, connect it to the
current parent if any, and make it the current parent.  Returns the new
state and the fresh index. -/
def insertNode (st : BuildState) (a : AstNode) : BuildState × Nat :=
  let ix := st.nextIx
  ({ st with
      nodes := st.nodes ++ [(ix, a)]
      edges := st.edges ++ (match st.current with
        | some p => [(p, ix)]
        | none => [])
      nextIx := ix + 1
      current := some ix }, ix)

/-- Restore the visitor's current parent (last line of `insert_and_visit!`). -/
def setCur (st : BuildState) (c : Option Nat) : BuildState :=
  { st with current := c }

mutual

/-- Visit of an item (`visit_item` override): insert an `Item` vertex, then
recurse into the function it wraps, if it is one. -/
def visitItem (st : BuildState) (i : SynItem) : BuildState :=
  let st1 := (insertNode st (.item i)).1
  let st2 := match i with
    | .fn f => visitItemFn st1 f
    | .other _ => st1
  setCur st2 st.current

/-- Visit of a free function (`visit_item_fn` override): insert an `ItemFn`
vertex, then recurse into its block. -/
def visitItemFn (st : BuildState) (f : SynItemFn) : BuildState :=
  let st1 := (insertNode st (.itemFn f)).1
  let st2 := match f with
    | .mk _ _ _ b => visitBlock st1 b
  setCur st2 st.current

/-- Visit of a block (`visit_block` override): insert a `Block` vertex, then
recurse into its statements. -/
def visitBlock (st : BuildState) (b : SynBlock) : BuildState :=
  let st1 := (insertNode st (.block b)).1
  let st2 := match b with
    | .mk _ stmts => visitStmtList st1 stmts
  setCur st2 st.current

/-- Visit of the statements of a block, in order. -/
def visitStmtList (st : BuildState) : List SynStmt → BuildState
  | [] => st
  | s :: rest => visitStmtList (visitStmt st s) rest

/-- Visit of a statement (library default `visit_stmt`): dispatch to the
tracked kinds; an opaque statement inserts nothing. -/
def visitStmt (st : BuildState) (s : SynStmt) : BuildState :=
  match s with
  | .localStmt l => visitLocal st l
  | .itemStmt i => visitItem st i
  | .exprStmt e _ => visitExpr st e
  | .otherStmt _ => st

/-- Visit of a local binding (`visit_local` override): insert a `LocalStmt`
vertex, then recurse into the initializer if present. -/
def visitLocal (st : BuildState) (l : SynLocal) : BuildState :=
  let st1 := (insertNode st (.localStmt l)).1
  let st2 := match l with
    | .mk _ none => st1
    | .mk _ (some e) => visitExpr st1 e
  setCur st2 st.current

/-- Visit of an expression (library default `visit_expr`): dispatch to the
tracked kinds; an untracked expression recurses into its sub-expressions
without inserting a vertex. -/
def visitExpr (st : BuildState) (e : SynExpr) : BuildState :=
  match e with
  | .array a => visitExprArray st a
  | .assign a => visitExprAssign st a
  | .letE l => visitExprLet st l
  | .other _ subs => visitExprList st subs

/-- Visit of a list of expressions, in order. -/
def visitExprList (st : BuildState) : List SynExpr → BuildState
  | [] => st
  | e :: rest => visitExprList (visitExpr st e) rest

/-- Visit of an array expression (`visit_expr_array` override). -/
def visitExprArray (st : BuildState) (a : SynExprArray) : BuildState :=
  let st1 := (insertNode st (.exprArray a)).1
  let st2 := match a with
    | .mk _ elems => visitExprList st1 elems
  setCur st2 st.current

/-- Visit of an assignment (`visit_expr_assign` override): recurse into the
left- and right-hand sides. -/
def visitExprAssign (st : BuildState) (a : SynExprAssign) : BuildState :=
  let st1 := (insertNode st (.exprAssign a)).1
  let st2 := match a with
    | .mk _ l r => visitExpr (visitExpr st1 l) r
  setCur st2 st.current

/-- Visit of a let expression (`visit_expr_let` override): recurse into its
scrutinee expression. -/
def visitExprLet (st : BuildState) (l : SynExprLet) : BuildState :=
  let st1 := (insertNode st (.exprLet l)).1
  let st2 := match l with
    | .mk _ e => visitExpr st1 e
  setCur st2 st.current

/-- Visit of the items of a file, in order. -/
def visitItemList (st : BuildState) : List SynItem → BuildState
  | [] => st
  | i :: rest => visitItemList (visitItem st i) rest

end

/-- Visit of the file (`visit_file` override): insert the `SourceRoot`
vertex, recurse into the items, restore the parent, then record the first
vertex of the graph as the root. -/
def visitFile (st : BuildState) (f : SynFile) : BuildState :=
  let st1 := (insertNode st (.sourceRoot f)).1
  let st2 := visitItemList st1 f.items
  let st3 := setCur st2 st.current
  { st3 with rootNode := st3.nodes.head?.map Prod.fst }

/-- Fresh builder state (`SyntaxTree::new()` with
`GraphBuilder::new(&mut tree, None)`). -/
def initBuild : BuildState :=
  { nodes := [], edges := [], nextIx := 0, current := none, rootNode := none }

/-- The graph held by a builder state. -/
def graphOf (st : BuildState) : SynGraph :=
  { nodes := st.nodes, edges := st.edges }

/-- Whole builder run of the searcher: build the graph of a parsed file. -/
def buildStateOf (f : SynFile) : BuildState :=
  visitFile initBuild f

/-!
Node remover (`NodeRemover::remove_node`).  A `petgraph::visit::Bfs` is run
from the target vertex over the graph while the graph is mutated: each
popped vertex first pushes its not-yet-discovered neighbors (marking them
discovered), is recorded as removed, and is then deleted from the graph
together with its incident edges.  The loop is written with a fuel counter
standing in for the unbounded Rust `while let`; `removeFuel` below always
exceeds the possible number of iterations (proved in the removal theorem's
development).
-/

/-- Neighbor push of `Bfs::next`: `for succ in neighbors { if visit(succ)
{ push_back(succ) } }`.  Returns the grown discovered list and the list of
newly pushed vertices, in push order. -/
def pushNeighbors (ns : List Nat) (disc : List Nat) : List Nat × List Nat :=
  ns.foldl
    (fun acc w => if w ∈ acc.1 then acc else (acc.1 ++ [w], acc.2 ++ [w]))
    (disc, [])

/-- Deletion of a vertex and its incident edges
(`StableDiGraph::remove_node`). -/
def removeVertexG (g : SynGraph) (u : Nat) : SynGraph :=
  { nodes := g.nodes.filter (fun n => !(n.1 == u))
    edges := g.edges.filter (fun e => !(e.1 == u) && !(e.2 == u)) }

/-- The remover's BFS-and-delete loop.  State: fuel, BFS queue, discovered
list, current graph, removed-so-far list. -/
def removeLoopF :
    Nat → List Nat → List Nat → SynGraph → List Nat → SynGraph × List Nat
  | 0, _, _, g, removed => (g, removed)
  | _ + 1, [], _, g, removed => (g, removed)
  | fuel + 1, u :: q, disc, g, removed =>
    let pr := pushNeighbors (neighborsOf g u) disc
    removeLoopF fuel (q ++ pr.2) pr.1 (removeVertexG g u) (removed ++ [u])

/-- Fuel bound for the removal loop: one more than the number of edges
bounds the number of discoveries, plus one for the start vertex. -/
def removeFuel (g : SynGraph) : Nat :=
  g.edges.length + 2

/-- Subtree removal (`NodeRemover::remove_node`): BFS from `v` deleting
every popped vertex; returns the final graph and the removed identities. -/
def NodeRemover.removeNode (g : SynGraph) (v : Nat) : SynGraph × List Nat :=
  removeLoopF (removeFuel g) [v] [v] g []

/-!
Code regenerator (`CodeGenerator::generate`).  The generator walks the
reversed BFS order of the graph, rebuilding each vertex's payload from the
rebuilt payloads of its children, read through a side table indexed by
vertex identity (a `HashMap`, persisted across calls).  Indexing the map at
a missing key panics, as does the searcher's `.unwrap()` on a returned
error; panics and error returns are kept distinct below.
-/

/-- Plain BFS (`petgraph::visit::Bfs` iterated to exhaustion), fuel-driven
like the remover's loop. -/
def bfsListF :
    Nat → List Nat → List Nat → SynGraph → List Nat → List Nat
  | 0, _, _, _, acc => acc
  | _ + 1, [], _, _, acc => acc
  | fuel + 1, u :: q, disc, g, acc =>
    let pr := pushNeighbors (neighborsOf g u) disc
    bfsListF fuel (q ++ pr.2) pr.1 g (acc ++ [u])

/-- BFS traversal order from `root`. -/
def bfsOrderOf (g : SynGraph) (root : Nat) : List Nat :=
  bfsListF (removeFuel g) [root] [root] g []

/-- Rebuilt payload of a vertex (enum `GeneratedASTNode`). -/
inductive GenNode where
  | sourceRoot (f : SynFile)
  | item (i : SynItem)
  | itemFn (f : SynItemFn)
  | block (b : SynBlock)
  | localStmt (l : SynLocal)
  | exprArray (a : SynExprArray)
  | exprAssign (a : SynExprAssign)
  | exprLet (l : SynExprLet)

/-- Kind tag of a rebuilt payload (the `Debug` name used in conversion
error messages). -/
inductive GenNodeKind where
  | sourceRoot | item | itemFn | block | localStmt | exprArray | exprAssign
  | exprLet
deriving DecidableEq, Repr

/-- Target shape of a failed conversion. -/
inductive ConvTarget where
  | stmt | block | itemFn | item
deriving DecidableEq, Repr

/-- Generator errors (enum `CodeGeneratorError`). -/
inductive CodeGeneratorError where
  | rootNodeMissingInSyntaxTree
  | fileNotGeneratedFromTree
  | mismatchedASTConversion (got : GenNodeKind) (expected : ConvTarget)
  | sourceRootDoesNotHaveItemChild
deriving DecidableEq, Repr

/-- Kind tag of a rebuilt payload. -/
def GenNode.kind : GenNode → GenNodeKind
  | .sourceRoot _ => .sourceRoot
  | .item _ => .item
  | .itemFn _ => .itemFn
  | .block _ => .block
  | .localStmt _ => .localStmt
  | .exprArray _ => .exprArray
  | .exprAssign _ => .exprAssign
  | .exprLet _ => .exprLet

/-- Conversion `TryFrom<GeneratedASTNode> for Stmt`: locals become let
statements, the tracked expressions become expression statements with no
trailing semicolon; everything else is a shape mismatch. -/
def GenNode.toStmt : GenNode → Except CodeGeneratorError SynStmt
  | .localStmt l => .ok (.localStmt l)
  | .exprArray a => .ok (.exprStmt (.array a) false)
  | .exprAssign a => .ok (.exprStmt (.assign a) false)
  | .exprLet l => .ok (.exprStmt (.letE l) false)
  | other => .error (.mismatchedASTConversion other.kind .stmt)

/-- Conversion `TryFrom<GeneratedASTNode> for Block`. -/
def GenNode.toBlock : GenNode → Except CodeGeneratorError SynBlock
  | .block b => .ok b
  | other => .error (.mismatchedASTConversion other.kind .block)

/-- Conversion `TryFrom<GeneratedASTNode> for ItemFn`. -/
def GenNode.toItemFn : GenNode → Except CodeGeneratorError SynItemFn
  | .itemFn f => .ok f
  | other => .error (.mismatchedASTConversion other.kind .itemFn)

/-- Conversion `TryFrom<GeneratedASTNode> for Item`. -/
def GenNode.toItem : GenNode → Except CodeGeneratorError SynItem
  | .item i => .ok i
  | other => .error (.mismatchedASTConversion other.kind .item)

/-- Rebuilt payload of a leaf vertex (`From<AstNode> for GeneratedASTNode`). -/
def GenNode.ofAst : AstNode → GenNode
  | .sourceRoot f => .sourceRoot f
  | .item i => .item i
  | .itemFn f => .itemFn f
  | .block b => .block b
  | .localStmt l => .localStmt l
  | .exprArray a => .exprArray a
  | .exprAssign a => .exprAssign a
  | .exprLet l => .exprLet l

/-- The generator's side table `ix_to_ast_node` (a `HashMap<NodeIndex,
GeneratedASTNode>`), as an association list keyed by vertex identity. -/
def RebuildMap : Type := List (Nat × GenNode)

/-- Map lookup `self.ix_to_ast_node[&ix]` (panics when absent; the caller
distinguishes the missing case). -/
def lookupR (st : RebuildMap) (ix : Nat) : Option GenNode :=
  (List.find? (fun n => n.1 == ix) st).map Prod.snd

/-- Map insert (`HashMap::insert`, overwriting any previous entry). -/
def insertR (st : RebuildMap) (ix : Nat) (v : GenNode) : RebuildMap :=
  (ix, v) :: List.filter (fun n => !(n.1 == ix)) st

/-- A generator run that aborts: a panic (map indexed at a missing key, or a
vertex missing from the graph), or a returned `CodeGeneratorError`. -/
inductive GenFailure where
  | mapPanic
  | nodePanic
  | genErr (e : CodeGeneratorError)
deriving DecidableEq, Repr

/-- Lazy `map(lookup).map(try_from).collect::<Result<Vec<_>, _>>()` over the
children: each child is looked up (panicking when absent) and converted; the
first conversion error aborts the collection. -/
def convertChildren (st : RebuildMap) (conv : GenNode → Except CodeGeneratorError α) :
    List Nat → Except GenFailure (List α)
  | [] => .ok []
  | c :: cs =>
    match lookupR st c with
    | none => .error .mapPanic
    | some v =>
      match conv v with
      | .error e => .error (.genErr e)
      | .ok x =>
        match convertChildren st conv cs with
        | .error e => .error e
        | .ok xs => .ok (x :: xs)

/-- Lazy `map(lookup).map(try_from).find_map(Result::ok)` over the children:
children are looked up (panicking when absent) and converted until the first
successful conversion; exhaustion yields `none`. -/
def findFirstOk (st : RebuildMap) (conv : GenNode → Except CodeGeneratorError α) :
    List Nat → Except GenFailure (Option α)
  | [] => .ok none
  | c :: cs =>
    match lookupR st c with
    | none => .error .mapPanic
    | some v =>
      match conv v with
      | .ok x => .ok (some x)
      | .error _ => findFirstOk st conv cs

/-- The empty block substituted for a missing function body
(`Block { brace_token: Default::default(), stmts: vec![] }`). -/
def emptyBlock : SynBlock := .mk 0 []

/-- Body of the generator's per-vertex match: rebuild the vertex from its
children's entries (children in petgraph's `edges_directed` iteration
order, i.e. reverse insertion order).  A `SourceRoot` yields the finished
file (the `break`); every other kind yields the updated side table. -/
def processNode (g : SynGraph) (st : RebuildMap) (ix : Nat) (a : AstNode) :
    Except GenFailure (SynFile ⊕ RebuildMap) :=
  match a with
  | .sourceRoot f =>
    match convertChildren st GenNode.toItem (neighborsOf g ix) with
    | .error e => .error e
    | .ok items =>
      .ok (.inl { shebang := f.shebang, attrs := f.attrs, items := items })
  | .item _ =>
    match findFirstOk st GenNode.toItemFn (neighborsOf g ix) with
    | .error e => .error e
    | .ok (some itemFn) => .ok (.inr (insertR st ix (.item (.fn itemFn))))
    | .ok none => .ok (.inr st)
  | .itemFn f =>
    match findFirstOk st GenNode.toBlock (neighborsOf g ix) with
    | .error e => .error e
    | .ok ob =>
      match f with
      | .mk attrs vis sig _ =>
        .ok (.inr (insertR st ix (.itemFn (.mk attrs vis sig (ob.getD emptyBlock)))))
  | .block b =>
    match convertChildren st GenNode.toStmt (neighborsOf g ix) with
    | .error e => .error e
    | .ok stmts =>
      match b with
      | .mk brace _ => .ok (.inr (insertR st ix (.block (.mk brace stmts.reverse))))
  | leaf => .ok (.inr (insertR st ix (GenNode.ofAst leaf)))

/-- The generator's main loop over the reversed BFS order: process each
vertex, stopping early at a rebuilt `SourceRoot` (the `break`). -/
def genLoop (g : SynGraph) :
    List Nat → RebuildMap → Except GenFailure (Option SynFile × RebuildMap)
  | [], st => .ok (none, st)
  | ix :: rest, st =>
    match lookupNode g ix with
    | none => .error .nodePanic
    | some a =>
      match processNode g st ix a with
      | .error e => .error e
      | .ok (.inl f) => .ok (some f, st)
      | .ok (.inr st2) => genLoop g rest st2

/-- Code regeneration (`CodeGenerator::generate`): reverse the BFS order
from the root, rebuild bottom-up, and return the reconstructed file (the
pretty-printed emission of which is the regenerated source text) together
with the persisted side table; no rebuilt `SourceRoot` is the
`FileNotGeneratedFromTree` error. -/
def generate (g : SynGraph) (root : Nat) (st : RebuildMap) :
    Except GenFailure (SynFile × RebuildMap) :=
  match genLoop g (bfsOrderOf g root).reverse st with
  | .error e => .error e
  | .ok (some f, st2) => .ok (f, st2)
  | .ok (none, _) => .error (.genErr .fileNotGeneratedFromTree)

/-!
Reduction searcher (`ASTGuidedSearcher::search`).  One loop iteration
(clone, remove, regenerate, build, compare, accept or reject) is modelled by
`searchStep`; the diagnostic records the external build driver produces for
the mutated project enter as the `variantErrors` input.  The pre-loop phase
(master error selection, source-file read, path computation) is modelled by
`searchPrelude` over an explicit file system.
-/

/-- Outcome of one loop iteration.  `panicked` is the aborted process: the
source unwraps the regeneration result (`.generate(...).unwrap()`), so any
regeneration failure panics.  On acceptance the clone with `removed` deleted
replaces the master graph and `removed` joins the skip set; on rejection
only the candidate joins the skip set. -/
inductive StepOutcome where
  | panicked
  | accepted (g2 : SynGraph) (removed : List Nat) (st2 : RebuildMap) (written : SynFile)
  | rejected (st2 : RebuildMap) (written : SynFile)

/-- Did the iteration accept the deletion? -/
def StepOutcome.isAccepted : StepOutcome → Bool
  | .accepted _ _ _ _ => true
  | _ => false

/-- Did the iteration reject the deletion (and keep running)? -/
def StepOutcome.isRejected : StepOutcome → Bool
  | .rejected _ _ => true
  | _ => false

/-- Did the iteration abort the whole run with a panic? -/
def StepOutcome.isPanicked : StepOutcome → Bool
  | .panicked => true
  | _ => false

/-- One iteration of the search loop over candidate `v`: clone the master
graph, remove the candidate's subtree, regenerate (unwrap: a failure
panics), write the regenerated file, collect the mutated project's errors
(`variantErrors`), and accept exactly when the first variant record equals
the master record under the derived structural equality
(`variant_master_error == Some(master_error)`). -/
def searchStep (g : SynGraph) (root v : Nat) (st : RebuildMap)
    (master : BuildError) (variantErrors : List BuildError) : StepOutcome :=
  match generate (NodeRemover.removeNode g v).1 root st with
  | .error _ => .panicked
  | .ok (f, st2) =>
    if variantErrors.head? = some master then
      .accepted (NodeRemover.removeNode g v).1 (NodeRemover.removeNode g v).2 st2 f
    else .rejected st2 f

/-- A file system: absolute paths (as text) mapped to file contents. -/
def FileSys : Type := List (List Char × List Char)

/-- Path separator. -/
def slash : Char := '/'

/-- Is the path absolute? -/
def isAbsolutePath (p : List Char) : Bool :=
  p.head? = some slash

/-- `PathBuf::join`: appending an absolute path replaces the base. -/
def pathJoin (base rel : List Char) : List Char :=
  if isAbsolutePath rel then rel else base ++ slash :: rel

/-- OS path resolution of a possibly relative path against the process's
current working directory. -/
def resolvePath (cwd p : List Char) : List Char :=
  if isAbsolutePath p then p else cwd ++ slash :: p

/-- `std::fs::read_to_string` against the file system. -/
def fsRead (fs : FileSys) (p : List Char) : Option (List Char) :=
  (List.find? (fun e => e.1 == p) fs).map Prod.snd

/-- `Path::canonicalize`: succeeds (here: with the resolved path itself)
exactly when the path exists; the source unwraps the result. -/
def canonicalizeP (fs : FileSys) (cwd p : List Char) : Option (List Char) :=
  if (fsRead fs (resolvePath cwd p)).isSome then some (resolvePath cwd p)
  else none

/-- Outcome of the searcher's pre-loop phase. -/
inductive PreludeOutcome where
  | noErrors
  | missingLoc (src : List Char)
  | sourceNotFound (p : List Char)
  | panicked
  | ready (contents : List Char) (filePath : List Char)
deriving DecidableEq, Repr

/-- Pre-loop phase of `ASTGuidedSearcher::search`: take the first collected
error as the master error (none: nothing to reduce), require its source
file, read that file with `read_to_string(root_file)` — resolved against
the current working directory — and compute the write path
`base_path.join(root_file).canonicalize().unwrap()` — resolved against the
`--path` project directory. -/
def searchPrelude (fs : FileSys) (cwd basePath : List Char)
    (oracleErrors : List BuildError) : PreludeOutcome :=
  match oracleErrors.head? with
  | none => .noErrors
  | some masterError =>
    match masterError.source_file with
    | none => .missingLoc masterError.error_src
    | some rootFile =>
      match fsRead fs (resolvePath cwd rootFile) with
      | none => .sourceNotFound rootFile
      | some contents =>
        match canonicalizeP fs cwd (pathJoin basePath rootFile) with
        | none => .panicked
        | some fp => .ready contents fp

/-- The parse step's field extraction on an already-parsed file. -/
def AbstractSyntaxTree.ofSynFile (f : SynFile) : AbstractSyntaxTree :=
  { attributes := f.attrs, items := f.items }

/-- The round trip at the syntax-tree level: take the library's parse of the
original text, build the graph of its `syn_file`, regenerate the file from
the unmodified graph, and read the regenerated file back as the re-parse
(the library's emit/re-parse contract makes the emitted text parse to a
tree structurally equal to the emitted file). -/
def roundTrip (parsed : SynFile) : Except GenFailure AbstractSyntaxTree :=
  let ast := AbstractSyntaxTree.ofSynFile parsed
  let st := buildStateOf ast.synFile
  match st.rootNode with
  | none => .error .nodePanic
  | some r =>
    match generate (graphOf st) r [] with
    | .error e => .error e
    | .ok (f, _) => .ok (AbstractSyntaxTree.ofSynFile f)

/-- Items of a successful generator run. -/
def genItems (r : Except GenFailure (SynFile × RebuildMap)) :
    Option (List SynItem) :=
  match r with
  | .ok (f, _) => some f.items
  | .error _ => none

/-- Did the computation return a value (`Result::is_ok`)? -/
def exceptIsOk : Except ε α → Bool
  | .ok _ => true
  | .error _ => false

/-- Does the first variant record exist and agree with the master record on
every field?  This is the derived structural equality the searcher's
acceptance test `variant_master_error == Some(master_error)` performs. -/
def recordMatches (o : Option BuildError) (m : BuildError) : Bool :=
  match o with
  | some e =>
    decide (e.error_code = m.error_code) && decide (e.source_file = m.source_file)
      && decide (e.error_src = m.error_src)
  | none => false

/-!
Concrete instances used by the counterexamples and witnesses.  The item
payloads (signature and brace tokens) are distinct so that reorderings are
observable.
-/

/-- Signature payload of an item (distinguishes the concrete items). -/
def sigOfItem : SynItem → Nat
  | .fn (.mk _ _ s _) => s
  | .other p => p

/-- Item signatures of a round-trip result. -/
def itemSigs (r : Except GenFailure AbstractSyntaxTree) : List Nat :=
  match r with
  | .ok a => a.items.map sigOfItem
  | .error _ => []

/-- First concrete item: a function with signature payload 1 and empty body. -/
def exItem1 : SynItem := .fn (.mk [] 0 1 (.mk 10 []))

/-- Second concrete item: a function with signature payload 2. -/
def exItem2 : SynItem := .fn (.mk [] 0 2 (.mk 20 []))

/-- Third concrete item: a function with signature payload 3. -/
def exItem3 : SynItem := .fn (.mk [] 0 3 (.mk 30 []))

/-- Fourth concrete item: a function with signature payload 4. -/
def exItem4 : SynItem := .fn (.mk [] 0 4 (.mk 40 []))

/-- A two-item source file (the shape of the repository's own
`parse_unparse_parse` test input `fn test_fn() {}\nfn main() {}`). -/
def exFile2 : SynFile := { shebang := none, attrs := [], items := [exItem1, exItem2] }

/-- Another two-item source file. -/
def exFile3 : SynFile := { shebang := none, attrs := [], items := [exItem3, exItem4] }

/-- A one-function source file (`fn main() {}`). -/
def exFileOne : SynFile := { shebang := none, attrs := [], items := [exItem1] }

/-- Builder graph of `exFileOne`: vertices 0 `SourceRoot`, 1 `Item`,
2 `ItemFn`, 3 `Block`; edges 0→1→2→3. -/
def gOne : SynGraph := graphOf (buildStateOf exFileOne)

/-- Builder graph of `exFile3`. -/
def gThree : SynGraph := graphOf (buildStateOf exFile3)

/-- A file with a nested function (`fn f() { fn g() {} }`): its block has an
`Item` child, which has no statement shape. -/
def exNested : SynFile :=
  { shebang := none, attrs := []
    items := [SynItem.fn (SynItemFn.mk [] 0 7 (SynBlock.mk 70
      [SynStmt.itemStmt (SynItem.fn (SynItemFn.mk [] 0 8 (SynBlock.mk 80 [])))]))] }

/-- Builder graph of `exNested`: 0 root, 1 item, 2 itemFn, 3 block, 4 inner
item, 5 inner itemFn, 6 inner block. -/
def gNested : SynGraph := graphOf (buildStateOf exNested)

/-- A master error record with a code. -/
def errA : BuildError :=
  { error_code := some ['E', '1'], source_file := some ['m'], error_src := ['x'] }

/-- A variant record with the same code and file but different first-line
text. -/
def errB : BuildError :=
  { error_code := some ['E', '1'], source_file := some ['m'], error_src := ['y'] }

/-- A master error for the abort counterexample. -/
def errC : BuildError :=
  { error_code := some ['E', '2'], source_file := some ['m'], error_src := ['z'] }


/-- Splitting always yields at least one piece. -/
theorem splitChar_ne_nil (c : Char) (l : List Char) : splitChar c l ≠ [] := by
  induction l with
  | nil => simp [splitChar]
  | cons x xs ih =>
    unfold splitChar
    by_cases hx : x = c
    · simp [hx]
    · simp only [if_neg hx]
      cases hs : splitChar c xs with
      | nil => simp
      | cons p ps => simp

/-- The first piece of a split is the longest separator-free prefix. -/
theorem splitChar_headQ (c : Char) (l : List Char) :
    (splitChar c l).head? = some (l.takeWhile (fun x => !(x == c))) := by
  induction l with
  | nil => rfl
  | cons x xs ih =>
    unfold splitChar
    by_cases hx : x = c
    · simp [hx, List.takeWhile]
    · simp only [if_neg hx]
      cases hs : splitChar c xs with
      | nil => exact absurd hs (splitChar_ne_nil c xs)
      | cons p ps =>
        rw [hs] at ih
        have hp : p = xs.takeWhile (fun y => !(y == c)) := by
          simpa using ih
        have hxc : (!(x == c)) = true := by simp [hx]
        simp [List.takeWhile_cons, hxc, hp]

/-- The second piece of a split exists exactly when the separator occurs,
and is then the separator-free stretch right after the first occurrence. -/
theorem splitChar_getQ_one (c : Char) (l : List Char) :
    (splitChar c l).get? 1 =
      if c ∈ l then
        some (((l.dropWhile (fun x => !(x == c))).drop 1).takeWhile
          (fun x => !(x == c)))
      else none := by
  induction l with
  | nil => rfl
  | cons x xs ih =>
    unfold splitChar
    by_cases hx : x = c
    · subst hx
      rw [if_pos (List.mem_cons_self x xs), if_pos rfl]
      rw [show (([] :: splitChar x xs).get? 1) = (splitChar x xs).get? 0 from rfl]
      rw [List.get?_zero, splitChar_headQ]
      have hdw : (x :: xs).dropWhile (fun y => !(y == x)) = x :: xs := by
        simp [List.dropWhile_cons]
      rw [hdw]
      rfl
    · simp only [if_neg hx]
      cases hs : splitChar c xs with
      | nil => exact absurd hs (splitChar_ne_nil c xs)
      | cons p ps =>
        rw [hs] at ih
        rw [show (((x :: p) :: ps).get? 1) = ((p :: ps).get? 1) from rfl, ih]
        have hxc : (!(x == c)) = true := by simp [hx]
        have hd : (x :: xs).dropWhile (fun y => !(y == c)) =
            xs.dropWhile (fun y => !(y == c)) := by
          simp [List.dropWhile_cons, hxc]
        have hm2 : (c ∈ x :: xs) ↔ (c ∈ xs) := by
          constructor
          · intro h
            rcases List.mem_cons.mp h with h1 | h1
            · exact absurd h1.symm hx
            · exact h1
          · intro h
            exact List.mem_cons_of_mem x h
        by_cases hm : c ∈ xs
        · rw [if_pos hm, if_pos (hm2.mpr hm), hd]
        · rw [if_neg hm, if_neg (fun h => hm (hm2.mp h))]

/-- Two nested `takeWhile` passes are one pass with the conjunction. -/
theorem takeWhile_and (p q : Char → Bool) (l : List Char) :
    (l.takeWhile p).takeWhile q = l.takeWhile (fun a => p a && q a) := by
  induction l with
  | nil => rfl
  | cons x xs ih =>
    by_cases hp : p x
    · by_cases hq : q x
      · simp [List.takeWhile_cons, hp, hq, ih]
      · simp [List.takeWhile_cons, hp, hq]
    · simp [List.takeWhile_cons, hp]

/-- When every child's table entry exists but none converts, the fallback
scan finds nothing. -/
theorem findFirstOk_eq_none {α : Type} (st : RebuildMap)
    (conv : GenNode → Except CodeGeneratorError α) (cs : List Nat)
    (h : ∀ c ∈ cs, ∃ v, lookupR st c = some v ∧ exceptIsOk (conv v) = false) :
    findFirstOk st conv cs = .ok none := by
  induction cs with
  | nil => rfl
  | cons c cs ih =>
    obtain ⟨v, hv, hc⟩ := h c (by simp)
    unfold findFirstOk
    rw [hv]
    cases hcv : conv v with
    | ok x => rw [hcv] at hc; simp [exceptIsOk] at hc
    | error e =>
      have hrest := ih (fun c2 hc2 => h c2 (by simp [hc2]))
      simp [hcv, hrest]

/-- The stretch of a diagnostic line captured as the error code by the
implementation: the characters after the first `[`, up to the next `[` or
`]` (or the end of the line). -/
def codeAfterBracket (line : List Char) : List Char :=
  ((line.dropWhile (fun c => !(c == '['))).drop 1).takeWhile
    (fun c => !(c == '[') && !(c == ']'))
/-- The diagnostic line of the code-capture counterexample: the bracketed
text sits after the colon, where the spec's rule captures nothing. -/
def cex8Line : List Char :=
  ['e', 'r', 'r', 'o', 'r', ':', ' ', 'o', 'd', 'd', ' ', '[', 'E', '0', '7',
    ']', ' ', 'x']
/-- Full diagnostic stream for the counterexample: the error line followed
by a location line. -/
def cex8Input : List Char :=
  cex8Line ++ '\n' :: [' ', '-', '-', '>', ' ', 'a', ':', '1', ':', '1']
/-- A build-error record without a code. -/
def errN1 : BuildError :=
  { error_code := none, source_file := some ['m'], error_src := ['w'] }
/-- Another codeless record with the same first line but another file. -/
def errN2 : BuildError :=
  { error_code := none, source_file := some ['n'], error_src := ['w'] }

/-- Current working directory of the path-resolution scenarios. -/
def cwdC : List Char := ['/', 'c']

/-- Project directory passed as `--path`. -/
def bpC : List Char := ['/', 'p']

/-- The project-relative source path reported by the diagnostic. -/
def rfC : List Char := ['s', 'r', 'c', '/', 'm', 'a', 'i', 'n', '.', 'r', 's']

/-- Master error carrying the relative source path. -/
def meC : BuildError :=
  { error_code := some ['E', '1'], source_file := some rfC, error_src := ['e'] }

/-- File system holding the source file under both the CWD and the project
directory, with distinct contents. -/
def fsBoth : FileSys :=
  [(cwdC ++ slash :: rfC, ['A']), (bpC ++ slash :: rfC, ['B'])]

/-- File system holding the source file only under the project directory. -/
def fsProjOnly : FileSys := [(bpC ++ slash :: rfC, ['B'])]


/-- Measure of the remover's loop: undiscovered edge targets plus queue
length; it strictly decreases at every iteration, so `removeFuel` bounds the
iteration count. -/
def Mes (g : SynGraph) (disc queue : List Nat) : Nat :=
  ((g.edges.map Prod.snd).toFinset \ disc.toFinset).card + queue.length

/-- Invariant of the remover's BFS-and-delete loop, relating the loop state
to the original graph `g0` and the start vertex `v`: the current graph is
the original minus the removed vertices; discovered = removed plus queued;
everything discovered is reachable from `v`; every edge out of a removed
vertex leads to a discovered vertex. -/
structure RInv (g0 : SynGraph) (v : Nat) (queue disc : List Nat)
    (g : SynGraph) (removed : List Nat) : Prop where
  gnodes : g.nodes = g0.nodes.filter (fun n => !(decide (n.1 ∈ removed)))
  gedges : g.edges = g0.edges.filter
    (fun e => (!(decide (e.1 ∈ removed))) && !(decide (e.2 ∈ removed)))
  discEq : ∀ u, u ∈ disc ↔ (u ∈ removed ∨ u ∈ queue)
  disj : ∀ u ∈ removed, u ∉ queue
  qnd : queue.Nodup
  rnd : removed.Nodup
  discReach : ∀ u ∈ disc, reachE g0.edges v u
  closedR : ∀ e ∈ g0.edges, e.1 ∈ removed → e.2 ∈ disc
  vdisc : v ∈ disc

/-- Relation between a builder state and the state after visiting one
syntax fragment under current parent `p`: nodes and edges only grow, the
current parent and root are restored, each new vertex has a fresh identity,
exactly one incoming new edge, and is reachable from `p`; new edges stay
inside the new vertices except for sources at `p`. -/
def GState (p : Nat) (st st2 : BuildState) : Prop :=
  ∃ ns es,
    st2.nodes = st.nodes ++ ns ∧
    st2.edges = st.edges ++ es ∧
    st.nextIx ≤ st2.nextIx ∧
    st2.current = st.current ∧
    st2.rootNode = st.rootNode ∧
    (∀ ix ∈ idsOf ns, st.nextIx ≤ ix ∧ ix < st2.nextIx) ∧
    (idsOf ns).Nodup ∧
    (∀ e ∈ es, (e.1 = p ∨ e.1 ∈ idsOf ns) ∧ e.2 ∈ idsOf ns) ∧
    (∀ ix ∈ idsOf ns, inEdgeCount es ix = 1) ∧
    (∀ ix ∈ idsOf ns, reachE st2.edges p ix)

/-!
Supporting lemmas: the split/`takeWhile` characterizations used for the
diagnostic-code capture, and the generator's fallback scan.
-/

/-!
Removal-loop development (claim C6): BFS-with-deletion is characterized by
reachability from the start vertex.
-/

/-- Membership in the petgraph neighbor iteration is edge membership. -/
theorem mem_neighborsOf (g : SynGraph) (u w : Nat) :
    w ∈ neighborsOf g u ↔ (u, w) ∈ g.edges := by
  simp only [neighborsOf, List.mem_reverse, List.mem_map, List.mem_filter]
  constructor
  · rintro ⟨e, ⟨he, hu⟩, hw⟩
    have : e = (u, w) := by
      cases e
      simp only [beq_iff_eq] at hu
      simp_all
    rwa [this] at he
  · intro h
    exact ⟨(u, w), ⟨h, by simp⟩, rfl⟩

/-- The neighbor push of one `Bfs::next` call: the discovered list grows
by exactly the newly pushed vertices, which are fresh, distinct neighbors. -/
theorem pushNeighbors_spec (ns d : List Nat) :
    ∃ t, (pushNeighbors ns d).1 = d ++ t ∧ (pushNeighbors ns d).2 = t ∧
      t.Nodup ∧ (∀ w ∈ t, w ∈ ns ∧ w ∉ d) ∧ (∀ w ∈ ns, w ∈ d ++ t) := by
  suffices h : ∀ (ns d q : List Nat),
      ∃ t, (ns.foldl
          (fun acc w => if w ∈ acc.1 then acc else (acc.1 ++ [w], acc.2 ++ [w]))
          (d, q)).1 = d ++ t ∧
        (ns.foldl
          (fun acc w => if w ∈ acc.1 then acc else (acc.1 ++ [w], acc.2 ++ [w]))
          (d, q)).2 = q ++ t ∧
        t.Nodup ∧ (∀ w ∈ t, w ∈ ns ∧ w ∉ d) ∧ (∀ w ∈ ns, w ∈ d ++ t) by
    obtain ⟨t, h1, h2, h3, h4, h5⟩ := h ns d []
    exact ⟨t, h1, by simpa using h2, h3, h4, h5⟩
  intro ns
  induction ns with
  | nil => intro d q; exact ⟨[], by simp, by simp, List.nodup_nil, by simp, by simp⟩
  | cons w rest ih =>
    intro d q
    by_cases hw : w ∈ d
    · simp only [List.foldl_cons, if_pos hw]
      obtain ⟨t, h1, h2, h3, h4, h5⟩ := ih d q
      refine ⟨t, h1, h2, h3, ?_, ?_⟩
      · intro x hx
        obtain ⟨hx1, hx2⟩ := h4 x hx
        exact ⟨List.mem_cons_of_mem w hx1, hx2⟩
      · intro x hx
        rcases List.mem_cons.mp hx with rfl | hx1
        · exact List.mem_append_left t hw
        · exact h5 x hx1
    · simp only [List.foldl_cons, if_neg hw]
      obtain ⟨t, h1, h2, h3, h4, h5⟩ := ih (d ++ [w]) (q ++ [w])
      refine ⟨w :: t, ?_, ?_, ?_, ?_, ?_⟩
      · rw [h1, List.append_assoc]; rfl
      · rw [h2, List.append_assoc]; rfl
      · refine List.Nodup.cons ?_ h3
        intro hwt
        exact (h4 w hwt).2 (List.mem_append_right d (List.mem_singleton.mpr rfl))
      · intro x hx
        rcases List.mem_cons.mp hx with rfl | hx1
        · exact ⟨List.mem_cons_self x rest, hw⟩
        · obtain ⟨hx1a, hx1b⟩ := h4 x hx1
          refine ⟨List.mem_cons_of_mem w hx1a, fun hxd => hx1b ?_⟩
          exact List.mem_append_left [w] hxd

      · intro x hx
        rcases List.mem_cons.mp hx with rfl | hx1
        · exact List.mem_append_right d (List.mem_cons_self x t)
        · have := h5 x hx1
          rcases List.mem_append.mp this with h6 | h6
          · rcases List.mem_append.mp h6 with h7 | h7
            · exact List.mem_append_left _ h7
            · rw [List.mem_singleton.mp h7]
              exact List.mem_append_right d (List.mem_cons_self w t)

          · exact List.mem_append_right d (List.mem_cons_of_mem w h6)

/-- Pointwise form of extending the removed set by one vertex. -/
theorem notMem_append_bool (a u : Nat) (removed : List Nat) :
    ((!(decide (a ∈ removed))) && !(a == u)) = !(decide (a ∈ removed ++ [u])) := by
  by_cases h1 : a ∈ removed <;> by_cases h2 : a = u <;> simp [h1, h2]

/-- One iteration of the remover's loop preserves the loop invariant. -/
theorem rinv_step (g0 : SynGraph) (v : Nat) (u : Nat) (q disc : List Nat)
    (g : SynGraph) (removed : List Nat)
    (inv : RInv g0 v (u :: q) disc g removed) :
    RInv g0 v (q ++ (pushNeighbors (neighborsOf g u) disc).2)
      (pushNeighbors (neighborsOf g u) disc).1
      (removeVertexG g u) (removed ++ [u]) := by
  obtain ⟨t, hp1, hp2, htnd, htsub, htcomp⟩ :=
    pushNeighbors_spec (neighborsOf g u) disc
  rw [hp1, hp2]
  have hu_disc : u ∈ disc := (inv.discEq u).mpr (Or.inr (List.mem_cons_self u q))
  have hu_nrem : u ∉ removed := fun h => inv.disj u h (List.mem_cons_self u q)
  have hrem_disc : ∀ w ∈ removed, w ∈ disc :=
    fun w hw => (inv.discEq w).mpr (Or.inl hw)
  have hq_disc : ∀ w ∈ q, w ∈ disc :=
    fun w hw => (inv.discEq w).mpr (Or.inr (List.mem_cons_of_mem u hw))
  have ht_ndisc : ∀ w ∈ t, w ∉ disc := fun w hw => (htsub w hw).2
  constructor
  case gnodes =>
    show (g.nodes.filter fun n => !(n.1 == u)) = _
    rw [inv.gnodes, List.filter_filter]
    refine List.filter_congr fun n _ => ?_
    rw [Bool.and_comm]
    exact notMem_append_bool n.1 u removed
  case gedges =>
    show (g.edges.filter fun e => (!(e.1 == u)) && !(e.2 == u)) = _
    rw [inv.gedges, List.filter_filter]
    refine List.filter_congr fun e _ => ?_
    by_cases h1 : e.1 ∈ removed <;> by_cases h2 : e.2 ∈ removed <;>
      by_cases h3 : e.1 = u <;> by_cases h4 : e.2 = u <;>
      simp [h1, h2, h3, h4]
  case discEq =>
    intro w
    have hw := inv.discEq w
    simp only [List.mem_append, List.mem_cons, List.mem_singleton,
      List.not_mem_nil, or_false] at hw ⊢
    tauto
  case disj =>
    intro w hw hwq
    rcases List.mem_append.mp hw with hw1 | hw1
    · rcases List.mem_append.mp hwq with hq1 | hq1
      · exact inv.disj w hw1 (List.mem_cons_of_mem u hq1)
      · exact ht_ndisc w hq1 (hrem_disc w hw1)
    · have hwu : w = u := List.mem_singleton.mp hw1
      subst hwu
      rcases List.mem_append.mp hwq with hq1 | hq1
      · exact (List.nodup_cons.mp inv.qnd).1 hq1
      · exact ht_ndisc w hq1 hu_disc
  case qnd =>
    refine List.Nodup.append (List.nodup_cons.mp inv.qnd).2 htnd ?_
    intro w hwq hwt
    exact ht_ndisc w hwt (hq_disc w hwq)
  case rnd =>
    refine List.Nodup.append inv.rnd (List.nodup_singleton u) ?_
    intro w hwq hwt
    rw [List.mem_singleton.mp hwt] at hwq
    exact hu_nrem hwq
  case discReach =>
    intro w hw
    rcases List.mem_append.mp hw with hw1 | hw1
    · exact inv.discReach w hw1
    · have hn : (u, w) ∈ g.edges := (mem_neighborsOf g u w).mp (htsub w hw1).1
      have hg0 : (u, w) ∈ g0.edges := by
        rw [inv.gedges] at hn
        exact (List.mem_filter.mp hn).1
      exact Relation.ReflTransGen.tail (inv.discReach u hu_disc) hg0
  case closedR =>
    intro e he h1
    rcases List.mem_append.mp h1 with h2 | h2
    · exact List.mem_append_left t (inv.closedR e he h2)
    · have heu : e.1 = u := List.mem_singleton.mp h2
      by_cases h3 : e.2 ∈ removed
      · exact List.mem_append_left t (hrem_disc e.2 h3)
      · have hge : e ∈ g.edges := by
          rw [inv.gedges, List.mem_filter]
          refine ⟨he, ?_⟩
          rw [heu]
          simp [hu_nrem, h3]
        have : e.2 ∈ neighborsOf g u := by
          rw [mem_neighborsOf]
          have : e = (e.1, e.2) := rfl
          rw [← heu]
          exact hge
        exact htcomp e.2 this
  case vdisc =>
    exact List.mem_append_left t inv.vdisc

/-- One iteration strictly decreases the loop measure. -/
theorem mes_step (g : SynGraph) (u : Nat) (q disc : List Nat) :
    Mes (removeVertexG g u) (pushNeighbors (neighborsOf g u) disc).1
        (q ++ (pushNeighbors (neighborsOf g u) disc).2) + 1 ≤
      Mes g disc (u :: q) := by
  obtain ⟨t, hp1, hp2, htnd, htsub, htcomp⟩ :=
    pushNeighbors_spec (neighborsOf g u) disc
  rw [hp1, hp2]
  have hTsub : ((removeVertexG g u).edges.map Prod.snd).toFinset ⊆
      (g.edges.map Prod.snd).toFinset := by
    intro x hx
    simp only [List.mem_toFinset, List.mem_map] at hx ⊢
    obtain ⟨e, he, hex⟩ := hx
    exact ⟨e, List.mem_of_mem_filter he, hex⟩
  have htS : t.toFinset ⊆
      (g.edges.map Prod.snd).toFinset \ disc.toFinset := by
    intro x hx
    simp only [List.mem_toFinset] at hx
    obtain ⟨hx1, hx2⟩ := htsub x hx
    have he : (u, x) ∈ g.edges := (mem_neighborsOf g u x).mp hx1
    simp only [Finset.mem_sdiff, List.mem_toFinset, List.mem_map]
    exact ⟨⟨(u, x), he, rfl⟩, hx2⟩
  have hkey : ((removeVertexG g u).edges.map Prod.snd).toFinset \
        (disc ++ t).toFinset ⊆
      ((g.edges.map Prod.snd).toFinset \ disc.toFinset) \ t.toFinset := by
    intro x hx
    simp only [Finset.mem_sdiff, List.mem_toFinset, List.mem_append] at hx ⊢
    obtain ⟨hx1, hx2⟩ := hx
    push_neg at hx2
    exact ⟨⟨(by simpa using hTsub (by simpa using hx1)), hx2.1⟩, hx2.2⟩
  have hcard1 : (((removeVertexG g u).edges.map Prod.snd).toFinset \
        (disc ++ t).toFinset).card ≤
      ((g.edges.map Prod.snd).toFinset \ disc.toFinset).card - t.length := by
    calc (((removeVertexG g u).edges.map Prod.snd).toFinset \
            (disc ++ t).toFinset).card
        ≤ (((g.edges.map Prod.snd).toFinset \ disc.toFinset) \
            t.toFinset).card := Finset.card_le_card hkey
      _ = ((g.edges.map Prod.snd).toFinset \ disc.toFinset).card -
            t.toFinset.card := Finset.card_sdiff htS
      _ = ((g.edges.map Prod.snd).toFinset \ disc.toFinset).card -
            t.length := by rw [List.toFinset_card_of_nodup htnd]
  have hcard2 : t.length ≤
      ((g.edges.map Prod.snd).toFinset \ disc.toFinset).card := by
    calc t.length = t.toFinset.card := (List.toFinset_card_of_nodup htnd).symm
      _ ≤ _ := Finset.card_le_card htS
  simp only [Mes, List.length_append, List.length_cons]
  omega

/-- Running the loop with enough fuel drains the queue while keeping the
invariant. -/
theorem removeLoopF_spec (g0 : SynGraph) (v : Nat) :
    ∀ (fuel : Nat) (queue disc : List Nat) (g : SynGraph) (removed : List Nat),
      RInv g0 v queue disc g removed → Mes g disc queue ≤ fuel →
      ∃ disc2, RInv g0 v [] disc2
        (removeLoopF fuel queue disc g removed).1
        (removeLoopF fuel queue disc g removed).2 := by
  intro fuel
  induction fuel with
  | zero =>
    intro queue disc g removed inv hm
    cases queue with
    | nil => exact ⟨disc, inv⟩
    | cons u q =>
      exfalso
      simp only [Mes, List.length_cons] at hm
      omega
  | succ fuel ih =>
    intro queue disc g removed inv hm
    cases queue with
    | nil => exact ⟨disc, inv⟩
    | cons u q =>
      have hstep := rinv_step g0 v u q disc g removed inv
      have hmes : Mes (removeVertexG g u)
          (pushNeighbors (neighborsOf g u) disc).1
          (q ++ (pushNeighbors (neighborsOf g u) disc).2) ≤ fuel := by
        have := mes_step g u q disc
        simp only [Mes, List.length_cons, List.length_append] at hm this ⊢
        omega
      have := ih (q ++ (pushNeighbors (neighborsOf g u) disc).2)
        (pushNeighbors (neighborsOf g u) disc).1
        (removeVertexG g u) (removed ++ [u]) hstep hmes
      simpa only [removeLoopF] using this

/-!
Builder development (claim C9): every visit call only grows the graph by a
subtree hanging off the current parent.
-/

/-- Identities of an appended node list. -/
theorem idsOf_append (a b : List (Nat × AstNode)) :
    idsOf (a ++ b) = idsOf a ++ idsOf b := List.map_append _ _ _

/-- Incoming-edge count over an appended edge list. -/
theorem inEdgeCount_append (a b : List (Nat × Nat)) (ix : Nat) :
    inEdgeCount (a ++ b) ix = inEdgeCount a ix + inEdgeCount b ix := by
  simp [inEdgeCount, List.filter_append]

/-- An edge list with no edge into `ix` gives it no parents. -/
theorem inEdgeCount_eq_zero (es : List (Nat × Nat)) (ix : Nat)
    (h : ∀ e ∈ es, e.2 ≠ ix) : inEdgeCount es ix = 0 := by
  simp only [inEdgeCount, List.length_eq_zero]
  rw [List.filter_eq_nil_iff]
  intro e he
  simp [h e he]

/-- Reachability is monotone in the edge list. -/
theorem reachE_mono {es es2 : List (Nat × Nat)} (h : ∀ e ∈ es, e ∈ es2)
    {a b : Nat} (hr : reachE es a b) : reachE es2 a b :=
  Relation.ReflTransGen.mono (fun x y hxy => h (x, y) hxy) hr

/-- A visit restores the current parent. -/
theorem GState.curEq {p : Nat} {st st2 : BuildState} (h : GState p st st2) :
    st2.current = st.current := by
  obtain ⟨ns, es, _, _, _, h4, _⟩ := h
  exact h4

/-- The empty visit effect. -/
theorem gstate_rfl (p : Nat) (st : BuildState) : GState p st st :=
  ⟨[], [], by simp, by simp, le_refl _, rfl, rfl, by simp [idsOf],
    List.nodup_nil, by simp, by simp [idsOf], by simp [idsOf]⟩

/-- Visit effects compose. -/
theorem gstate_trans {p : Nat} {st1 st2 st3 : BuildState}
    (h1 : GState p st1 st2) (h2 : GState p st2 st3) : GState p st1 st3 := by
  obtain ⟨ns1, es1, hn1, he1, hx1, hc1, hr1, hb1, hd1, hst1, hin1, hre1⟩ := h1
  obtain ⟨ns2, es2, hn2, he2, hx2, hc2, hr2, hb2, hd2, hst2, hin2, hre2⟩ := h2
  have hns1lt : ∀ ix ∈ idsOf ns1, ix < st2.nextIx := fun ix hx => (hb1 ix hx).2
  have hns2ge : ∀ ix ∈ idsOf ns2, st2.nextIx ≤ ix := fun ix hx => (hb2 ix hx).1
  refine ⟨ns1 ++ ns2, es1 ++ es2, ?_, ?_, le_trans hx1 hx2, ?_, ?_, ?_, ?_, ?_, ?_, ?_⟩
  · rw [hn2, hn1, List.append_assoc]
  · rw [he2, he1, List.append_assoc]
  · rw [hc2, hc1]
  · rw [hr2, hr1]
  · intro ix hix
    rw [idsOf_append, List.mem_append] at hix
    rcases hix with hix | hix
    · exact ⟨(hb1 ix hix).1, lt_of_lt_of_le (hb1 ix hix).2 hx2⟩
    · exact ⟨le_trans hx1 (hb2 ix hix).1, (hb2 ix hix).2⟩
  · rw [idsOf_append]
    refine List.Nodup.append hd1 hd2 ?_
    intro ix hix1 hix2
    exact absurd (lt_of_lt_of_le (hns1lt ix hix1) (hns2ge ix hix2)) (lt_irrefl ix)
  · intro e he
    rw [idsOf_append]
    rcases List.mem_append.mp he with he1m | he2m
    · obtain ⟨hsrc, htgt⟩ := hst1 e he1m
      refine ⟨?_, List.mem_append_left _ htgt⟩
      rcases hsrc with hsrc | hsrc
      · exact Or.inl hsrc
      · exact Or.inr (List.mem_append_left _ hsrc)
    · obtain ⟨hsrc, htgt⟩ := hst2 e he2m
      refine ⟨?_, List.mem_append_right _ htgt⟩
      rcases hsrc with hsrc | hsrc
      · exact Or.inl hsrc
      · exact Or.inr (List.mem_append_right _ hsrc)
  · intro ix hix
    rw [idsOf_append, List.mem_append] at hix
    rw [inEdgeCount_append]
    rcases hix with hix | hix
    · have hz : inEdgeCount es2 ix = 0 := by
        refine inEdgeCount_eq_zero es2 ix fun e he hcon => ?_
        have := (hst2 e he).2
        rw [hcon] at this
        exact absurd (lt_of_lt_of_le (hns1lt ix hix) (hns2ge ix this))
          (lt_irrefl ix)
      rw [hin1 ix hix, hz]
    · have hz : inEdgeCount es1 ix = 0 := by
        refine inEdgeCount_eq_zero es1 ix fun e he hcon => ?_
        have := (hst1 e he).2
        rw [hcon] at this
        exact absurd (lt_of_lt_of_le (hns1lt ix this) (hns2ge ix hix))
          (lt_irrefl ix)
      rw [hin2 ix hix, hz]
  · intro ix hix
    rw [idsOf_append, List.mem_append] at hix
    rcases hix with hix | hix
    · refine reachE_mono ?_ (hre1 ix hix)
      intro e he
      rw [he2]
      exact List.mem_append_left _ he
    · exact hre2 ix hix

/-- The `insert_and_visit!` pattern: inserting a vertex under parent `p`
and then visiting children under the new vertex is itself a visit effect
under `p`. -/
theorem gstate_wrap (st : BuildState) (a : AstNode) (p : Nat)
    (hc : st.current = some p) (st2 : BuildState)
    (h : GState st.nextIx (insertNode st a).1 st2) :
    GState p st (setCur st2 st.current) := by
  have hn1 : (insertNode st a).1.nodes = st.nodes ++ [(st.nextIx, a)] := rfl
  have he1 : (insertNode st a).1.edges = st.edges ++ [(p, st.nextIx)] := by
    simp [insertNode, hc]
  have hx1 : (insertNode st a).1.nextIx = st.nextIx + 1 := rfl
  have hr1 : (insertNode st a).1.rootNode = st.rootNode := rfl
  obtain ⟨ns2, es2, hn2, he2, hx2, hc2, hr2, hb2, hd2, hst2, hin2, hre2⟩ := h
  rw [hx1] at hx2
  have hns2ge : ∀ ix ∈ idsOf ns2, st.nextIx + 1 ≤ ix := by
    intro ix hix
    have := (hb2 ix hix).1
    rwa [hx1] at this
  have hns2lt : ∀ ix ∈ idsOf ns2, ix < st2.nextIx := fun ix hix => (hb2 ix hix).2
  have hedge_mem : (p, st.nextIx) ∈ st2.edges := by
    rw [he2, he1]
    exact List.mem_append_left _
      (List.mem_append_right _ (List.mem_singleton.mpr rfl))
  have hids : idsOf ((st.nextIx, a) :: ns2) = st.nextIx :: idsOf ns2 := rfl
  refine ⟨(st.nextIx, a) :: ns2, (p, st.nextIx) :: es2, ?_, ?_, ?_, rfl, ?_, ?_, ?_, ?_, ?_, ?_⟩
  · show st2.nodes = _
    rw [hn2, hn1, List.append_assoc]
    rfl
  · show st2.edges = _
    rw [he2, he1, List.append_assoc]
    rfl
  · show st.nextIx ≤ st2.nextIx
    omega
  · show st2.rootNode = st.rootNode
    rw [hr2, hr1]
  · intro ix hix
    rw [hids] at hix
    show st.nextIx ≤ ix ∧ ix < st2.nextIx
    rcases List.mem_cons.mp hix with rfl | hix
    · omega
    · have h1 := hns2ge ix hix
      have h2 := hns2lt ix hix
      omega
  · rw [hids]
    refine List.Nodup.cons ?_ hd2
    intro hmem
    have := hns2ge st.nextIx hmem
    omega
  · intro e he
    rw [hids]
    rcases List.mem_cons.mp he with rfl | he
    · exact ⟨Or.inl rfl, List.mem_cons_self _ _⟩
    · obtain ⟨hsrc, htgt⟩ := hst2 e he
      refine ⟨?_, List.mem_cons_of_mem _ htgt⟩
      rcases hsrc with hsrc | hsrc
      · exact Or.inr (hsrc ▸ List.mem_cons_self _ _)
      · exact Or.inr (List.mem_cons_of_mem _ hsrc)
  · intro ix hix
    rw [hids] at hix
    rcases List.mem_cons.mp hix with rfl | hix
    · have hz : inEdgeCount es2 st.nextIx = 0 := by
        refine inEdgeCount_eq_zero es2 st.nextIx fun e he hcon => ?_
        have h2t := (hst2 e he).2
        rw [hcon] at h2t
        have := hns2ge st.nextIx h2t
        omega
      rw [show ((p, st.nextIx) :: es2) = [(p, st.nextIx)] ++ es2 from rfl,
        inEdgeCount_append, hz]
      simp [inEdgeCount]
    · have hz : inEdgeCount [(p, st.nextIx)] ix = 0 := by
        refine inEdgeCount_eq_zero _ ix fun e he hcon => ?_
        rw [List.mem_singleton.mp he] at hcon
        simp only at hcon
        have := hns2ge ix hix
        omega
      rw [show ((p, st.nextIx) :: es2) = [(p, st.nextIx)] ++ es2 from rfl,
        inEdgeCount_append, hz, hin2 ix hix]
  · intro ix hix
    rw [hids] at hix
    show reachE st2.edges p ix
    rcases List.mem_cons.mp hix with rfl | hix
    · exact Relation.ReflTransGen.single hedge_mem
    · exact Relation.ReflTransGen.head hedge_mem (hre2 ix hix)

mutual

theorem visitItem_g (st : BuildState) (i : SynItem) (p : Nat)
    (hc : st.current = some p) : GState p st (visitItem st i) := by
  unfold visitItem
  apply gstate_wrap st (.item i) p hc
  cases i with
  | fn f => exact visitItemFn_g (insertNode st (.item (.fn f))).1 f st.nextIx rfl
  | other pay => exact gstate_rfl _ _

theorem visitItemFn_g (st : BuildState) (f : SynItemFn) (p : Nat)
    (hc : st.current = some p) : GState p st (visitItemFn st f) := by
  unfold visitItemFn
  apply gstate_wrap st (.itemFn f) p hc
  cases f with
  | mk attrs vis sig b =>
    exact visitBlock_g (insertNode st (.itemFn (.mk attrs vis sig b))).1 b
      st.nextIx rfl

theorem visitBlock_g (st : BuildState) (b : SynBlock) (p : Nat)
    (hc : st.current = some p) : GState p st (visitBlock st b) := by
  unfold visitBlock
  apply gstate_wrap st (.block b) p hc
  cases b with
  | mk brace stmts =>
    exact visitStmtList_g (insertNode st (.block (.mk brace stmts))).1 stmts
      st.nextIx rfl

theorem visitStmtList_g (st : BuildState) (l : List SynStmt) (p : Nat)
    (hc : st.current = some p) : GState p st (visitStmtList st l) := by
  cases l with
  | nil => exact gstate_rfl p st
  | cons s rest =>
    have h1 := visitStmt_g st s p hc
    have hc2 : (visitStmt st s).current = some p := by rw [h1.curEq, hc]
    exact gstate_trans h1 (visitStmtList_g (visitStmt st s) rest p hc2)

theorem visitStmt_g (st : BuildState) (s : SynStmt) (p : Nat)
    (hc : st.current = some p) : GState p st (visitStmt st s) := by
  cases s with
  | localStmt l => exact visitLocal_g st l p hc
  | itemStmt i => exact visitItem_g st i p hc
  | exprStmt e semi => exact visitExpr_g st e p hc
  | otherStmt pay => exact gstate_rfl p st

theorem visitLocal_g (st : BuildState) (l : SynLocal) (p : Nat)
    (hc : st.current = some p) : GState p st (visitLocal st l) := by
  unfold visitLocal
  apply gstate_wrap st (.localStmt l) p hc
  cases l with
  | mk pay init =>
    cases init with
    | none => exact gstate_rfl _ _
    | some e =>
      exact visitExpr_g (insertNode st (.localStmt (.mk pay (some e)))).1 e
        st.nextIx rfl

theorem visitExpr_g (st : BuildState) (e : SynExpr) (p : Nat)
    (hc : st.current = some p) : GState p st (visitExpr st e) := by
  cases e with
  | array a => exact visitExprArray_g st a p hc
  | assign a => exact visitExprAssign_g st a p hc
  | letE l => exact visitExprLet_g st l p hc
  | other pay subs => exact visitExprList_g st subs p hc

theorem visitExprList_g (st : BuildState) (l : List SynExpr) (p : Nat)
    (hc : st.current = some p) : GState p st (visitExprList st l) := by
  cases l with
  | nil => exact gstate_rfl p st
  | cons e rest =>
    have h1 := visitExpr_g st e p hc
    have hc2 : (visitExpr st e).current = some p := by rw [h1.curEq, hc]
    exact gstate_trans h1 (visitExprList_g (visitExpr st e) rest p hc2)

theorem visitExprArray_g (st : BuildState) (a : SynExprArray) (p : Nat)
    (hc : st.current = some p) : GState p st (visitExprArray st a) := by
  unfold visitExprArray
  apply gstate_wrap st (.exprArray a) p hc
  cases a with
  | mk pay elems =>
    exact visitExprList_g (insertNode st (.exprArray (.mk pay elems))).1 elems
      st.nextIx rfl

theorem visitExprAssign_g (st : BuildState) (a : SynExprAssign) (p : Nat)
    (hc : st.current = some p) : GState p st (visitExprAssign st a) := by
  unfold visitExprAssign
  apply gstate_wrap st (.exprAssign a) p hc
  cases a with
  | mk pay l r =>
    have h1 := visitExpr_g (insertNode st (.exprAssign (.mk pay l r))).1 l
      st.nextIx rfl
    have hc2 :
        (visitExpr (insertNode st (.exprAssign (.mk pay l r))).1 l).current =
          some st.nextIx := by
      rw [h1.curEq]
      rfl
    exact gstate_trans h1
      (visitExpr_g (visitExpr (insertNode st (.exprAssign (.mk pay l r))).1 l)
        r st.nextIx hc2)

theorem visitExprLet_g (st : BuildState) (l : SynExprLet) (p : Nat)
    (hc : st.current = some p) : GState p st (visitExprLet st l) := by
  unfold visitExprLet
  apply gstate_wrap st (.exprLet l) p hc
  cases l with
  | mk pay e =>
    exact visitExpr_g (insertNode st (.exprLet (.mk pay e))).1 e st.nextIx rfl

theorem visitItemList_g (st : BuildState) (l : List SynItem) (p : Nat)
    (hc : st.current = some p) : GState p st (visitItemList st l) := by
  cases l with
  | nil => exact gstate_rfl p st
  | cons i rest =>
    have h1 := visitItem_g st i p hc
    have hc2 : (visitItem st i).current = some p := by rw [h1.curEq, hc]
    exact gstate_trans h1 (visitItemList_g (visitItem st i) rest p hc2)

end

/-!
The claims.
-/

/-- Claim C1 (corrected): the searcher accepts a candidate deletion exactly
when the first error record of the mutated project equals the master record
in every field — `error_code`, `source_file` and `error_src` — i.e. under
the derived structural equality, not under the spec's code-only signature
rule; whenever regeneration succeeds, acceptance coincides with
`recordMatches`. -/
theorem c1_acceptance_is_full_record_equality (g : SynGraph) (root v : Nat)
    (st : RebuildMap) (master : BuildError) (vs : List BuildError)
    (h : exceptIsOk (generate (NodeRemover.removeNode g v).1 root st) = true) :
    (searchStep g root v st master vs).isAccepted =
      recordMatches vs.head? master := by
  unfold searchStep
  cases hg : generate (NodeRemover.removeNode g v).1 root st with
  | error e => rw [hg] at h; simp [exceptIsOk] at h
  | ok p =>
    obtain ⟨f, st2⟩ := p
    by_cases hv : vs.head? = some master
    · simp only [hv, if_pos rfl, StepOutcome.isAccepted, recordMatches]
      simp
    · simp only [if_neg hv, StepOutcome.isAccepted]
      cases he : vs.head? with
      | none => simp [recordMatches]
      | some e =>
        simp only [recordMatches]
        by_contra hb
        have : e = master := by
          have h1 : e.error_code = master.error_code := by
            by_contra hne
            simp [hne] at hb
          have h2 : e.source_file = master.source_file := by
            by_contra hne
            simp [hne] at hb
          have h3 : e.error_src = master.error_src := by
            by_contra hne
            simp [hne] at hb
          cases e; cases master; simp_all
        rw [he, this] at hv
        exact hv rfl

/-- Witness for C1: at the one-function graph with the block deleted,
regeneration succeeds and acceptance agrees with full record equality. -/
theorem c1_acceptance_is_full_record_equality_witness :
    (searchStep gOne 0 3 [] errA [errA]).isAccepted =
      recordMatches [errA].head? errA :=
  c1_acceptance_is_full_record_equality gOne 0 3 [] errA [errA] (by decide)

/-- Counterexample for C1: a variant record with the master's code but a
different `error_src` is signature-equal to the master under the spec's
rule, yet the searcher rejects the candidate. -/
theorem c1_signature_rule_counterexample :
    (searchStep gOne 0 3 [] errA [errB]).isRejected = true ∧
    (searchStep gOne 0 3 [] errA [errB]).isAccepted = false ∧
    signatureEqSpec errB errA = true := by decide

/-- Claim C2 (code bug): the round trip parse–build–generate–reparse is not
the identity: on the two-item file it returns the file with the items
reversed, because the `SourceRoot` branch of the generator collects
`edges_directed` — which iterates in reverse insertion order — without the
compensating reverse the `Block` branch performs. -/
theorem c2_round_trip_reverses_items :
    roundTrip exFile2 = .ok ⟨[], [exItem2, exItem1]⟩ ∧
    roundTrip exFile2 ≠ .ok (AbstractSyntaxTree.ofSynFile exFile2) := by
  refine ⟨rfl, fun h => absurd (congrArg itemSigs h) (by decide)⟩

/-- Claim C3 (code bug): generating from the unmodified builder graph of a
two-item file emits the root's `Item` children in the reverse of the edge
insertion order (the textual order): the children in edge order are
vertices 1 then 4 holding the first and second item, but the generated file
lists the second item first. -/
theorem c3_root_items_emitted_in_reverse_edge_order :
    genItems (generate gThree 0 []) = some [exItem4, exItem3] ∧
    edgeOrderChildren gThree 0 = [1, 4] ∧
    lookupNode gThree 1 = some (.item exItem3) ∧
    lookupNode gThree 4 = some (.item exItem4) :=
  ⟨rfl, rfl, rfl, rfl⟩

/-- Claim C4 (corrected): a regeneration failure inside the loop is not
locally recoverable: the searcher unwraps the generator's result, so any
failing regeneration panics and aborts the whole run. -/
theorem c4_regeneration_failure_aborts_run (g : SynGraph) (root v : Nat)
    (st : RebuildMap) (master : BuildError) (vs : List BuildError)
    (h : exceptIsOk (generate (NodeRemover.removeNode g v).1 root st) = false) :
    searchStep g root v st master vs = .panicked := by
  unfold searchStep
  cases hg : generate (NodeRemover.removeNode g v).1 root st with
  | error e => rfl
  | ok p => rw [hg] at h; simp [exceptIsOk] at h

/-- Witness for C4: deleting the inner block of the nested-function file
makes regeneration fail, and the step panics. -/
theorem c4_regeneration_failure_aborts_run_witness :
    searchStep gNested 0 6 [] errC [] = StepOutcome.panicked :=
  c4_regeneration_failure_aborts_run gNested 0 6 [] errC [] (by decide)

/-- Counterexample for C4: at the nested-function graph with the inner
block deleted, regeneration fails, and the iteration is a panic — not a
rejection that lets the run continue. -/
theorem c4_locally_recoverable_counterexample :
    exceptIsOk (generate (NodeRemover.removeNode gNested 6).1 0 []) = false ∧
    (searchStep gNested 0 6 [] errC []).isPanicked = true ∧
    (searchStep gNested 0 6 [] errC []).isRejected = false := by decide

/-- Claim C5 (corrected): the parse adapter unwraps the library's result,
so every syntactically valid input parses successfully into its attributes
and items, but a syntactically invalid input panics — the adapter has no
`ParseFailure` error value to return. -/
theorem c5_parse_panics_on_invalid_input :
    (∀ f : SynFile,
      AbstractSyntaxTree.parse (some f) =
        .ok { attributes := f.attrs, items := f.items }) ∧
    AbstractSyntaxTree.parse none = .panicked :=
  ⟨fun _ => rfl, rfl⟩

/-- Counterexample for C5: on a syntactically invalid input the parse
operation panics instead of failing with an error value. -/
theorem c5_error_value_counterexample :
    AbstractSyntaxTree.parse none = RustOutcome.panicked := rfl

/-- Claim C6 (confirmed): for a vertex `v` of the graph, `remove_node`
deletes exactly the vertices reachable from `v` (including `v`), returns
their identities, and afterwards no descendant of `v` remains in the graph,
let alone reachable from the root. -/
theorem c6_remove_node_deletes_exactly_reachable (g : SynGraph) (v : Nat)
    (_hv : v ∈ idsOf g.nodes) :
    (∀ u, u ∈ (NodeRemover.removeNode g v).2 ↔ reachE g.edges v u) ∧
    (∀ u, u ∈ idsOf (NodeRemover.removeNode g v).1.nodes ↔
      (u ∈ idsOf g.nodes ∧ ¬ reachE g.edges v u)) ∧
    (∀ rt u, reachE g.edges v u →
      ¬ (u ∈ idsOf (NodeRemover.removeNode g v).1.nodes ∧
        reachE (NodeRemover.removeNode g v).1.edges rt u)) := by
  have inv0 : RInv g v [v] [v] g [] := by
    constructor
    case gnodes => simp
    case gedges => simp
    case discEq => intro u; simp
    case disj => intro u hu; simp at hu
    case qnd => exact List.nodup_singleton v
    case rnd => exact List.nodup_nil
    case discReach =>
      intro u hu
      rw [List.mem_singleton.mp hu]
      exact Relation.ReflTransGen.refl
    case closedR => intro e he h; simp at h
    case vdisc => exact List.mem_singleton.mpr rfl
  have hm0 : Mes g [v] [v] ≤ removeFuel g := by
    simp only [Mes, removeFuel, List.length_singleton]
    have h1 : ((g.edges.map Prod.snd).toFinset \
          ([v] : List Nat).toFinset).card ≤
        (g.edges.map Prod.snd).toFinset.card :=
      Finset.card_le_card Finset.sdiff_subset
    have h2 : (g.edges.map Prod.snd).toFinset.card ≤
        (g.edges.map Prod.snd).length :=
      List.toFinset_card_le _
    rw [List.length_map] at h2
    omega
  obtain ⟨disc2, F⟩ :=
    removeLoopF_spec g v (removeFuel g) [v] [v] g [] inv0 hm0
  have hdisc : ∀ u, u ∈ disc2 ↔ u ∈ (NodeRemover.removeNode g v).2 := by
    intro u
    have := F.discEq u
    simpa using this
  have hmemreach : ∀ u, u ∈ (NodeRemover.removeNode g v).2 ↔
      reachE g.edges v u := by
    intro u
    constructor
    · intro hu
      exact F.discReach u ((hdisc u).mpr hu)
    · intro hr
      induction hr with
      | refl => exact (hdisc v).mp F.vdisc
      | tail hab hbc ih => exact (hdisc _).mp (F.closedR _ hbc ih)
  have hnodes : ∀ u, u ∈ idsOf (NodeRemover.removeNode g v).1.nodes ↔
      (u ∈ idsOf g.nodes ∧ u ∉ (NodeRemover.removeNode g v).2) := by
    intro u
    rw [show (NodeRemover.removeNode g v).1.nodes =
      g.nodes.filter
        (fun n => !(decide (n.1 ∈ (NodeRemover.removeNode g v).2)))
      from F.gnodes]
    simp only [idsOf, List.mem_map, List.mem_filter, Bool.not_eq_true',
      decide_eq_false_iff_not]
    constructor
    · rintro ⟨n, ⟨hn, hp⟩, rfl⟩
      exact ⟨⟨n, hn, rfl⟩, hp⟩
    · rintro ⟨⟨n, hn, rfl⟩, hu2⟩
      exact ⟨n, ⟨hn, hu2⟩, rfl⟩
  refine ⟨hmemreach, ?_, ?_⟩
  · intro u
    rw [hnodes u, hmemreach u]
  · intro rt u hr hand
    obtain ⟨hmem, _⟩ := hand
    exact ((hnodes u).mp hmem).2 ((hmemreach u).mpr hr)

/-- Witness for C6: removal of the `Item` vertex of the one-function graph,
with the membership hypothesis discharged concretely. -/
theorem c6_remove_node_deletes_exactly_reachable_witness :
    (∀ u, u ∈ (NodeRemover.removeNode gOne 1).2 ↔ reachE gOne.edges 1 u) ∧
    (∀ u, u ∈ idsOf (NodeRemover.removeNode gOne 1).1.nodes ↔
      (u ∈ idsOf gOne.nodes ∧ ¬ reachE gOne.edges 1 u)) ∧
    (∀ rt u, reachE gOne.edges 1 u →
      ¬ (u ∈ idsOf (NodeRemover.removeNode gOne 1).1.nodes ∧
        reachE (NodeRemover.removeNode gOne 1).1.edges rt u)) :=
  c6_remove_node_deletes_exactly_reachable gOne 1 (by decide)

/-- Claim C7 (confirmed): when a `FunctionItem` vertex has no surviving
child rebuilt as a block, the generator substitutes the empty block as the
function's body and continues, rather than failing; concretely, the
one-function graph with its block deleted regenerates to a function with an
empty block. -/
theorem c7_missing_block_child_empty_body :
    (∀ (g : SynGraph) (st : RebuildMap) (ix : Nat) (attrs : List Nat)
        (vis sig : Nat) (b : SynBlock),
      (∀ c ∈ neighborsOf g ix,
          ∃ v, lookupR st c = some v ∧ exceptIsOk (GenNode.toBlock v) = false) →
      processNode g st ix (.itemFn (.mk attrs vis sig b)) =
        .ok (.inr (insertR st ix (.itemFn (.mk attrs vis sig emptyBlock))))) ∧
    genItems (generate (NodeRemover.removeNode gOne 3).1 0 []) =
      some [SynItem.fn (.mk [] 0 1 emptyBlock)] := by
  constructor
  · intro g st ix attrs vis sig b h
    unfold processNode
    rw [findFirstOk_eq_none st GenNode.toBlock (neighborsOf g ix) h]
    rfl
  · rfl

/-- Witness for C7: the childless `ItemFn` vertex of the block-deleted
one-function graph rebuilds with an empty block body. -/
theorem c7_missing_block_child_empty_body_witness :
    processNode (NodeRemover.removeNode gOne 3).1 [] 2
        (.itemFn (.mk [] 0 1 (.mk 10 []))) =
      .ok (.inr (insertR [] 2 (.itemFn (.mk [] 0 1 emptyBlock)))) :=
  c7_missing_block_child_empty_body.1 (NodeRemover.removeNode gOne 3).1 [] 2
    [] 0 1 (.mk 10 [])
    (by
      intro c hc
      rw [show neighborsOf (NodeRemover.removeNode gOne 3).1 2 = [] from rfl]
        at hc
      exact absurd hc (List.not_mem_nil c))

/-- Claim C8 (corrected): for an `error` line, the captured code is the
text after the first `[` anywhere in the line — not only between the
keyword and the colon — up to the next `]` or `[` (or the line's end), and
it is present exactly when the line contains a `[`; when both codes are
absent, the spec's signature equality compares `error_src` (while the
searcher's acceptance compares whole records, claim C1). -/
theorem c8_error_code_capture_characterization :
    (∀ line : List Char,
      errorCodeOf line =
        if '[' ∈ line then some (codeAfterBracket line) else none) ∧
    (∀ e1 e2 : BuildError, e1.error_code = none → e2.error_code = none →
      (signatureEqSpec e1 e2 = true ↔ e1.error_src = e2.error_src)) := by
  constructor
  · intro line
    unfold errorCodeOf codeAfterBracket
    rw [splitChar_getQ_one]
    by_cases hm : '[' ∈ line
    · rw [if_pos hm, if_pos hm, Option.some_bind, splitChar_headQ,
        takeWhile_and]
    · rw [if_neg hm, if_neg hm]
      rfl
  · intro e1 e2 h1 h2
    unfold signatureEqSpec
    rw [h1, h2]
    simp

/-- Witness for C8: the characterization evaluated at the counterexample
line, and the codeless fallback at two concrete records. -/
theorem c8_error_code_capture_characterization_witness :
    (errorCodeOf cex8Line =
      if '[' ∈ cex8Line then some (codeAfterBracket cex8Line) else none) ∧
    (signatureEqSpec errN1 errN2 = true ↔ errN1.error_src = errN2.error_src) :=
  ⟨c8_error_code_capture_characterization.1 cex8Line,
    c8_error_code_capture_characterization.2 errN1 errN2 rfl rfl⟩

/-- Counterexample for C8: a line whose bracketed text sits after the
colon — the spec's capture window between the keyword and the colon is
empty — still gets `error_code` set by the parser. -/
theorem c8_bracket_after_colon_counterexample :
    BuildErros.tryFrom cex8Input =
      .ok [{ error_code := some ['E', '0', '7'], source_file := some ['a'],
             error_src := cex8Line }] ∧
    specCodeWindow cex8Line = [] :=
  ⟨rfl, rfl⟩

/-- Claim C9 (confirmed): the graph the builder produces from any parsed
file is a tree: the recorded root is vertex 0 of kind `SourceRoot`, vertex
identities are distinct, the root has no parent, and every other vertex has
exactly one parent and is reachable from the root. -/
theorem c9_builder_graph_is_tree (f : SynFile) :
    (buildStateOf f).rootNode = some 0 ∧
    lookupNode (graphOf (buildStateOf f)) 0 = some (.sourceRoot f) ∧
    (idsOf (buildStateOf f).nodes).Nodup ∧
    inEdgeCount (buildStateOf f).edges 0 = 0 ∧
    (∀ ix ∈ idsOf (buildStateOf f).nodes, ix ≠ 0 →
      inEdgeCount (buildStateOf f).edges ix = 1 ∧
      reachE (buildStateOf f).edges 0 ix) := by
  have hst1 : (insertNode initBuild (.sourceRoot f)).1 =
      { nodes := [(0, .sourceRoot f)], edges := [], nextIx := 1,
        current := some 0, rootNode := none } := rfl
  obtain ⟨ns, es, hn, he, hx, hcur, hroot, hb, hd, hst, hin, hre⟩ :=
    visitItemList_g (insertNode initBuild (.sourceRoot f)).1 f.items 0 rfl
  rw [hst1] at hn he hb
  have hnodesEq : (buildStateOf f).nodes = (0, AstNode.sourceRoot f) :: ns := hn
  have hedgesEq : (buildStateOf f).edges = es := he
  have hge1 : ∀ ix ∈ idsOf ns, 1 ≤ ix := fun ix hix => (hb ix hix).1
  have hids : idsOf ((0, AstNode.sourceRoot f) :: ns) = 0 :: idsOf ns := rfl
  refine ⟨?_, ?_, ?_, ?_, ?_⟩
  · rw [show (buildStateOf f).rootNode =
      (buildStateOf f).nodes.head?.map Prod.fst from rfl, hnodesEq]
    rfl
  · rw [show lookupNode (graphOf (buildStateOf f)) 0 =
      ((buildStateOf f).nodes.find? (fun n => n.1 == 0)).map Prod.snd from rfl,
      hnodesEq]
    rfl
  · rw [hnodesEq, hids]
    refine List.Nodup.cons ?_ hd
    intro hmem
    exact absurd (hge1 0 hmem) (by omega)
  · rw [hedgesEq]
    refine inEdgeCount_eq_zero es 0 fun e he2 hcon => ?_
    have := (hst e he2).2
    rw [hcon] at this
    exact absurd (hge1 0 this) (by omega)
  · intro ix hix hne
    rw [hnodesEq, hids] at hix
    rcases List.mem_cons.mp hix with rfl | hix
    · exact absurd rfl hne
    · rw [hedgesEq]
      have he3 : (visitItemList (insertNode initBuild
          (AstNode.sourceRoot f)).1 f.items).edges = es := he
      exact ⟨hin ix hix, he3 ▸ hre ix hix⟩

/-- Claim C10 (corrected): the searcher reads the master error's relative
source path against the current working directory but computes the
candidate/final write path against the `--path` project directory; whenever
the CWD-resolved path is unreadable, the run fails with
`ErrorSourceFileNotFound` — even when the file exists under the project
directory. -/
theorem c10_cwd_unreadable_source_fails (fs : FileSys) (cwd bp : List Char)
    (errs : List BuildError) (me : BuildError) (rf : List Char)
    (h1 : errs.head? = some me) (h2 : me.source_file = some rf)
    (h3 : fsRead fs (resolvePath cwd rf) = none) :
    searchPrelude fs cwd bp errs = .sourceNotFound rf := by
  unfold searchPrelude
  simp only [h1, h2, h3]

/-- Witness for C10: with the source file present only under the project
directory and the CWD elsewhere, the run fails with the file-not-found
error. -/
theorem c10_cwd_unreadable_source_fails_witness :
    searchPrelude fsProjOnly cwdC bpC [meC] = .sourceNotFound rfC :=
  c10_cwd_unreadable_source_fails fsProjOnly cwdC bpC [meC] meC rfC rfl rfl
    (by decide)

/-- Counterexample for C10: when the relative path also resolves under the
CWD, a run with CWD distinct from the project directory does not fail: it
reads the CWD copy and computes the write path under the project
directory. -/
theorem c10_exists_in_both_counterexample :
    cwdC ≠ bpC ∧
    (fsRead fsBoth (resolvePath bpC rfC)).isSome = true ∧
    searchPrelude fsBoth cwdC bpC [meC] = .ready ['A'] (bpC ++ slash :: rfC) ∧
    searchPrelude fsBoth cwdC bpC [meC] ≠ .sourceNotFound rfC := by decide
